import Mathlib

/-!
Shallow embedding of the rusttest-to-dg annotation converter
(src/errors.rs, src/transform.rs, src/header.rs).  Strings are modelled
as `List Char`; the lazily compiled regexes are modelled by explicit
leftmost-match scanners; `usize` arithmetic uses `Nat` with the
debug-mode subtraction-overflow panic modelled as a fatal outcome, and
`i32` quantities use `Int` (line counts never approach the i32 range).
Rust's Unicode case folding and whitespace classes are modelled by their
ASCII restrictions (`Char.toUpper`, `Char.isWhitespace`), which agree
with Rust on all ASCII input.
-/

namespace RustToDg

/-- Characters matched by `\w` in the revision-list group of the
annotation regex `//(?:\[([\w\-,]+)])?~(\||\^*)` (src/errors.rs:365). -/
def isWordChar (c : Char) : Bool := c.isAlphanum || c = '_'

/-- Characters matched by the class `[\w\-,]` in the revision-list group. -/
def isRevChar (c : Char) : Bool := isWordChar c || c = '-' || c = ','

/-- The `(\||\^*)` tail of the annotation regex: the alternation prefers a
single `|`, otherwise takes the greedy (maximal) run of `^`.  Returns the
captured adjust text and the remainder of the line after the whole match. -/
def matchAdjust (s : List Char) : List Char × List Char :=
  match s with
  | '|' :: rest => (['|'], rest)
  | _ => (s.takeWhile (· = '^'), s.dropWhile (· = '^'))

/-- One attempt of the annotation regex `//(?:\[([\w\-,]+)])?~(\||\^*)`
anchored at the start of `s` (src/errors.rs:365).  The optional bracketed
revision list is taken greedily; since `]` is not in the class `[\w\-,]`,
the greedy run is the only candidate, and if the group cannot be completed
the engine falls back to requiring `~` directly after `//`.  Returns the
captured adjust text and the remainder after the whole match. -/
def matchSigilHere (s : List Char) : Option (List Char × List Char) :=
  match s with
  | '/' :: '/' :: rest =>
    match rest with
    | '[' :: r2 =>
      (match r2.dropWhile isRevChar with
       | ']' :: '~' :: r4 =>
         if (r2.takeWhile isRevChar).isEmpty then none
         else some (matchAdjust r4)
       | _ => none)
    | '~' :: r1 => some (matchAdjust r1)
    | _ => none
  | _ => none

/-- Leftmost search of the annotation regex over a line, as performed by
`Regex::captures` (src/errors.rs:365).  Returns the text before the match
(`line[..whole_match.start()]`), the captured adjust text, and the text
after the match (`line.split_at(whole_match.end()).1`). -/
def findSigil : List Char → Option (List Char × List Char × List Char)
  | [] => none
  | c :: rest =>
    match matchSigilHere (c :: rest) with
    | some (adj, after) => some ([], adj, after)
    | none =>
      match findSigil rest with
      | some (b, adj, after) => some (c :: b, adj, after)
      | none => none

/-- The shape of a string at which the annotation regex matches at
position 0: `//~` directly, or `//[revs]~` with a nonempty revision list
drawn from the class of the regex. -/
def SigilShape (s : List Char) : Prop :=
  (∃ r, s = '/' :: '/' :: '~' :: r) ∨
  (∃ revs r, s = '/' :: '/' :: '[' :: (revs ++ ']' :: '~' :: r) ∧
    revs ≠ [] ∧ ∀ c ∈ revs, isRevChar c = true)

/-- Strip a single trailing carriage return, as Rust's `str::lines` does
for lines terminated by `\r\n`. -/
def chopCR (l : List Char) : List Char :=
  match l.reverse with
  | '\r' :: a => a.reverse
  | _ => l

/-- Worker for `strLines`: accumulates the current line (reversed) and
emits it (with a trailing `\r` stripped) at each `\n`. -/
def strLinesAux (acc : List Char) : List Char → List (List Char)
  | [] => if acc.isEmpty then [] else [acc.reverse]
  | c :: rest =>
    if c = '\n' then chopCR acc.reverse :: strLinesAux [] rest
    else strLinesAux (c :: acc) rest

/-- Rust's `str::lines`: split at `\n`, strip a `\r` preceding each `\n`,
final line ending optional, empty string yields no lines. -/
def strLines (s : List Char) : List (List Char) := strLinesAux [] s

/-- Rust's `str::trim_start` restricted to ASCII whitespace. -/
def trimLeft (l : List Char) : List Char := l.dropWhile Char.isWhitespace

/-- Rust's `str::trim` restricted to ASCII whitespace. -/
def trimList (l : List Char) : List Char :=
  ((l.dropWhile Char.isWhitespace).reverse.dropWhile Char.isWhitespace).reverse

/-- Decimal digit character for a remainder `k < 10` (total, clamping at
`'9'`, which is never exercised since it is only applied to `n % 10`). -/
def digitChar : Nat → Char
  | 0 => '0' | 1 => '1' | 2 => '2' | 3 => '3' | 4 => '4'
  | 5 => '5' | 6 => '6' | 7 => '7' | 8 => '8' | _ => '9'

/-- Decimal rendering of a natural number, least significant digit
computed first; structurally recursive on a fuel argument so that it
reduces by kernel computation (`fuel = n + 1` always suffices, since the
value shrinks by a factor of ten per step). -/
def natReprAux : Nat → Nat → List Char → List Char
  | 0, _, acc => acc
  | fuel + 1, n, acc =>
    let acc' := digitChar (n % 10) :: acc
    if n < 10 then acc' else natReprAux fuel (n / 10) acc'

/-- Decimal rendering of a natural number (standard, no leading zeros). -/
def natRepr (n : Nat) : List Char := natReprAux (n + 1) n []

/-- Rendering of an `i32` by Rust's `Display`: minus sign for negatives,
then decimal digits. -/
def intRepr (i : Int) : List Char :=
  if i < 0 then '-' :: natRepr (-i).toNat else natRepr i.toNat

/-- The kinds of rustc compiler messages (`RustcErrorKind`,
src/errors.rs:53). -/
inductive RustcErrorKind
  | Help | Error | Note | Suggestion | Warning
deriving DecidableEq, Repr

/-- `RustcErrorKind::from_str` (src/errors.rs:82): uppercase the word,
keep the part before the first `:`, and match the five keywords (with
`WARN` as an alias for `WARNING`). -/
def parseErrorKind (s : List Char) : Option RustcErrorKind :=
  let part0 := (s.map Char.toUpper).takeWhile (· ≠ ':')
  if part0 = "HELP".toList then some .Help
  else if part0 = "ERROR".toList then some .Error
  else if part0 = "NOTE".toList then some .Note
  else if part0 = "SUGGESTION".toList then some .Suggestion
  else if part0 = "WARN".toList then some .Warning
  else if part0 = "WARNING".toList then some .Warning
  else none

/-- One expected-error record (`struct Error`, src/errors.rs:138). -/
structure Error where
  line_num : Nat
  relative_line_num : Int
  kind : Option RustcErrorKind
  msg : List Char
  error_code : Option (List Char)
deriving DecidableEq, Repr

/-- How the current annotation anchored its target line (`enum WhichLine`,
src/errors.rs:202). -/
inductive WhichLine
  | ThisLine
  | FollowPrevious (n : Nat)
  | AdjustBackward (n : Nat)
deriving DecidableEq, Repr

/-- Decidable equality for `Except`, used to evaluate the embedded
functions on concrete inputs. -/
instance {e a : Type} [DecidableEq e] [DecidableEq a] : DecidableEq (Except e a) :=
  fun x y =>
  match x, y with
  | .ok u, .ok v =>
    if h : u = v then .isTrue (by rw [h]) else .isFalse (fun hc => h (Except.ok.inj hc))
  | .error u, .error v =>
    if h : u = v then .isTrue (by rw [h]) else .isFalse (fun hc => h (Except.error.inj hc))
  | .ok _, .error _ => .isFalse (fun hc => Except.noConfusion hc)
  | .error _, .ok _ => .isFalse (fun hc => Except.noConfusion hc)

/-- Result of `parse_expected` on one line: no annotation on the line, a
fatal panic (with the panic message), or a recognized annotation. -/
inductive ParseResult
  | noMatch
  | fatal (msg : String)
  | ok (which : WhichLine) (e : Error)
deriving DecidableEq, Repr

/-- Panic message of the `.expect` on an all-whitespace comment body
(src/errors.rs:381). -/
def emptyCommentMsg : String := "Encountered unexpected empty comment"

/-- Panic message of the dead `assert_eq!` guarding marker exclusivity
(src/errors.rs:394). -/
def conflictMsg : String := "use either //~| or //~^, not both."

/-- Panic message of the `.expect` on a follow marker with no anchor
(src/errors.rs:395). -/
def noPrecedingMsg : String := "encountered //~| without preceding //~^ line."

/-- Panic message of a debug-mode `usize` subtraction overflow
(src/errors.rs:407, `line_num - adjusts`). -/
def subOverflowMsg : String := "attempt to subtract with overflow"

/-- `parse_expected` (src/errors.rs:354): recognize the annotation sigil,
split off a leading kind word, and resolve the reference form.  Panics are
modelled as `.fatal` with the corresponding panic message. -/
def parse_expected (last_nonfollow_error : Option Nat) (line_num : Nat)
    (line : List Char) : ParseResult :=
  match findSigil line with
  | none => .noMatch
  | some (_, adjustStr, msg0) =>
    -- `let (follow, adjusts) = match adjust { "|" => (true, 0), c => (false, c.len()) }`;
    -- the `follow` flag is the condition `adjustStr = ['|']` used below.
    let adjusts : Nat := if adjustStr = ['|'] then 0 else adjustStr.length
    if trimLeft msg0 = [] then .fatal emptyCommentMsg
    else
      let first_word := (trimLeft msg0).takeWhile (fun c => !c.isWhitespace)
      let kind := parseErrorKind first_word
      let msg1 := if kind.isSome then (trimLeft msg0).drop first_word.length else msg0
      let msg := trimList msg1
      if adjustStr = ['|'] then
        if adjusts ≠ 0 then .fatal conflictMsg
        else
          match last_nonfollow_error with
          | none => .fatal noPrecedingMsg
          | some a =>
            .ok (.FollowPrevious a)
              ⟨a, (a : Int) - (line_num : Int), kind, msg, none⟩
      else
        if line_num < adjusts then .fatal subOverflowMsg
        else
          let which := if adjusts > 0 then WhichLine.AdjustBackward adjusts
                       else WhichLine.ThisLine
          .ok which ⟨line_num - adjusts, -(adjusts : Int), kind, msg, none⟩

/-- The anchor update of `load_error` (src/errors.rs:238): keep the old
anchor for a follow outcome, otherwise store the current 0-based
`enumerate` index (exactly as the source does). -/
def update_anchor (last : Option Nat) (idx : Nat) : WhichLine → Option Nat
  | .FollowPrevious _ => last
  | _ => some idx

/-- The extraction loop of `load_error` (src/errors.rs:236): iterate the
lines with a 0-based `enumerate` index, call `parse_expected` with the
1-based line number, and update the anchor for non-follow outcomes. -/
def load_error_go (last : Option Nat) (idx : Nat) :
    List (List Char) → Except String (List Error)
  | [] => .ok []
  | l :: ls =>
    match parse_expected last (idx + 1) l with
    | .noMatch => load_error_go last (idx + 1) ls
    | .fatal m => .error m
    | .ok w e =>
      match load_error_go (update_anchor last idx w) (idx + 1) ls with
      | .error m => .error m
      | .ok rest => .ok (e :: rest)

/-- One parsed block of the companion stderr text (`struct StderrResult`,
src/errors.rs:272). -/
structure StderrResult where
  error_code : List Char
  error_message_detail : List Char
  line_number : Nat
deriving DecidableEq, Repr

/-- `is_error_code` (src/errors.rs:293): the shape `^E\d{4}$`. -/
def is_error_code (s : List Char) : Bool :=
  match s with
  | 'E' :: ds => ds.length = 4 && ds.all Char.isDigit
  | _ => false

/-- A record's code is either still unset or satisfies the `E\d{4}` shape
that `parse_error_code` guarantees for every companion entry. -/
def GoodCode (e : Error) : Prop :=
  ∀ cd, e.error_code = some cd → is_error_code cd = true

/-- Every companion entry carries a code of the shape `E\d{4}` — the
invariant `parse_error_code` establishes via its `is_error_code` filter
(src/errors.rs:328). -/
def StderrCodesOk : Option (List StderrResult) → Prop
  | none => True
  | some es => ∀ r ∈ es, is_error_code r.error_code = true

/-- The code-assignment inner loop of `load_error` (src/errors.rs:257):
scan all companion entries in order and overwrite `error_code`
unconditionally on every match (line number equal, or message equal). -/
def assign_error_code (entries : List StderrResult) (e : Error) : Error :=
  entries.foldl
    (fun acc r =>
      if acc.line_num = r.line_number ∨ acc.msg = r.error_message_detail then
        { acc with error_code := some r.error_code }
      else acc)
    e

/-- `load_error` (src/errors.rs:231).  The parsing of the raw stderr text
by `parse_error_code` is abstracted as its result: the already-scanned
list of `StderrResult` entries (each of which that function guarantees to
satisfy `is_error_code`, src/errors.rs:328). -/
def load_error (text : List Char) (stderr : Option (List StderrResult)) :
    Except String (List Error) :=
  match load_error_go none 0 (strLines text) with
  | .error m => .error m
  | .ok errors =>
    match stderr with
    | none => .ok errors
    | some entries => .ok (errors.map (assign_error_code entries))

/-- `impl fmt::Display for Error` (src/errors.rs:161): the emitted DejaGnu
directive text. -/
def error_display (e : Error) : List Char :=
  let error_type : List Char :=
    match e.kind with
    | some .Help => "help".toList
    | some .Error => "dg-error".toList
    | some .Note => "dg-note".toList
    | some .Suggestion => "suggestion".toList
    | some .Warning => "dg-warning".toList
    | none => "dg-error".toList
  let code0 : List Char := match e.error_code with | none => [] | some c => c
  let error_code : List Char :=
    if code0 = [] then [] else '.' :: (code0 ++ ['.'])
  let rel : List Char :=
    if e.relative_line_num = 0 then []
    else '.' :: (intRepr e.relative_line_num ++ [' '])
  "// \x7b ".toList ++ error_type ++ " \"".toList ++ error_code ++
    "\" \"\" \x7b target *-*-* \x7d ".toList ++ rel ++ ['\x7d']

/-- The per-line body of `transform_code`'s rewriting loop
(src/transform.rs:28): find the first record whose reconstructed origin
line equals the current line number; replace the whole line when the
record's relative offset is nonzero, otherwise re-locate the sigil and
append the directive after the text preceding it (panicking — modelled as
`.error` — if the sigil cannot be re-located). -/
def transform_line (errors : List Error) (line_num : Int) (line : List Char) :
    Except String (List Char) :=
  match errors.find? (fun e =>
      decide ((e.line_num : Int) - e.relative_line_num = line_num)) with
  | none => .ok line
  | some e =>
    if e.relative_line_num ≠ 0 then .ok (error_display e)
    else
      match findSigil line with
      | none => .error "Could not find the error directive"
      | some (before, _, _) => .ok (before ++ error_display e)

/-- The rewriting loop of `transform_code` (src/transform.rs:27): walk the
lines with a 1-based `i32` counter. -/
def transform_lines (errors : List Error) : Int → List (List Char) →
    Except String (List (List Char))
  | _, [] => .ok []
  | n, l :: ls =>
    match transform_line errors n l with
    | .error m => .error m
    | .ok nl =>
      match transform_lines errors (n + 1) ls with
      | .error m => .error m
      | .ok rest => .ok (nl :: rest)

/-- The output assembly of `transform_code` (src/transform.rs:59): each
line pushed onto the output followed by one newline. -/
def joinNL (ls : List (List Char)) : List Char :=
  ls.foldr (fun l acc => l ++ '\n' :: acc) []

/-- `transform_code` (src/transform.rs:19): load the records, rewrite each
line, and emit every (possibly rewritten) line followed by one newline. -/
def transform_code (code : List Char) (stderr : Option (List StderrResult)) :
    Except String (List Char) :=
  match load_error code stderr with
  | .error m => .error m
  | .ok errors =>
    match transform_lines errors 1 (strLines code) with
    | .error m => .error m
    | .ok newLines => .ok (joinNL newLines)

/-- `parse_edition_directive` (src/header.rs:1): the value is present only
when `line` starts with `directive` immediately followed by `:`; the
`.unwrap()` on the `None` value is modelled by an `Option` result, `none`
standing for the panic. -/
def parse_edition_directive (line directive : List Char) : Option (List Char) :=
  let value : Option (List Char) :=
    if directive.isPrefixOf line ∧ line.get? directive.length = some ':' then
      some (line.drop (directive.length + 1))
    else none
  value.map (fun v =>
    "// \x7b dg-additional-options \"-frust-edition=".toList ++ v ++ "\" \x7d".toList)

end RustToDg

namespace RustToDg

/-! ### Helper lemmas about runs -/

/-- A `takeWhile` over a satisfied run followed by a failing element. -/
theorem takeWhile_append_cons {a : Type} (p : a → Bool) (xs : List a) (y : a)
    (ys : List a) (hxs : ∀ c ∈ xs, p c = true) (hy : p y = false) :
    (xs ++ y :: ys).takeWhile p = xs := by
  induction xs with
  | nil => simp [List.takeWhile_cons, hy]
  | cons c cs ih =>
    have hc : p c = true := hxs c (by simp)
    simp only [List.cons_append, List.takeWhile_cons, hc, if_true]
    rw [ih (fun d hd => hxs d (by simp [hd]))]

/-- A `dropWhile` over a satisfied run followed by a failing element. -/
theorem dropWhile_append_cons {a : Type} (p : a → Bool) (xs : List a) (y : a)
    (ys : List a) (hxs : ∀ c ∈ xs, p c = true) (hy : p y = false) :
    (xs ++ y :: ys).dropWhile p = y :: ys := by
  induction xs with
  | nil => simp [List.dropWhile_cons, hy]
  | cons c cs ih =>
    have hc : p c = true := hxs c (by simp)
    simp only [List.cons_append, List.dropWhile_cons, hc, if_true]
    exact ih (fun d hd => hxs d (by simp [hd]))

/-! ### Characterization of the annotation recognizer -/

theorem shape_of_matchSigilHere {s : List Char} {x : List Char × List Char}
    (h : matchSigilHere s = some x) : SigilShape s := by
  unfold matchSigilHere at h
  split at h
  · rename_i rest
    split at h
    · rename_i r2
      split at h
      · rename_i r4 hdrop
        split at h
        · exact absurd h (by simp)
        · rename_i hne
          refine Or.inr ⟨r2.takeWhile isRevChar, r4, ?_, ?_, ?_⟩
          · have hsp := List.takeWhile_append_dropWhile (p := isRevChar) (l := r2)
            rw [hdrop] at hsp
            rw [hsp]
          · simpa [List.isEmpty_iff] using hne
          · exact fun c hc => List.mem_takeWhile_imp hc
      · exact absurd h (by simp)
    · rename_i r1
      exact Or.inl ⟨r1, rfl⟩
    · exact absurd h (by simp)
  · exact absurd h (by simp)

theorem matchSigilHere_isSome_of_shape {s : List Char} (h : SigilShape s) :
    (matchSigilHere s).isSome = true := by
  rcases h with ⟨r, rfl⟩ | ⟨revs, r, rfl, hne, hall⟩
  · simp [matchSigilHere]
  · have ht : (revs ++ ']' :: '~' :: r).takeWhile isRevChar = revs :=
      takeWhile_append_cons _ _ _ _ hall (by decide)
    have hd : (revs ++ ']' :: '~' :: r).dropWhile isRevChar = ']' :: '~' :: r :=
      dropWhile_append_cons _ _ _ _ hall (by decide)
    simp [matchSigilHere, ht, hd, List.isEmpty_iff, hne]

theorem tilde_mem_of_shape {s : List Char} (h : SigilShape s) : '~' ∈ s := by
  rcases h with ⟨r, rfl⟩ | ⟨revs, r, rfl, _, _⟩ <;> simp

theorem shape_append {s : List Char} (t : List Char) (h : SigilShape s) :
    SigilShape (s ++ t) := by
  rcases h with ⟨r, rfl⟩ | ⟨revs, r, rfl, hne, hall⟩
  · exact Or.inl ⟨r ++ t, by simp⟩
  · exact Or.inr ⟨revs, r ++ t, by simp, hne, hall⟩

theorem shape_unappend {u d : List Char} (h : SigilShape (u ++ d))
    (hd : '~' ∉ d) : SigilShape u := by
  rcases h with ⟨r, hr⟩ | ⟨revs, r, hr, hne, hall⟩
  · have hr2 : u ++ d = ['/', '/'] ++ '~' :: r := by simpa using hr
    rcases List.append_eq_append_iff.mp hr2 with ⟨w, _, hw2⟩ | ⟨w, hw1, hw2⟩
    · exact absurd (by rw [hw2]; simp : '~' ∈ d) hd
    · match w, hw2 with
      | [], hw2 =>
        exact absurd (by rw [List.nil_append] at hw2; rw [← hw2]; simp : '~' ∈ d) hd
      | x :: w', hw2 =>
        have hx : x = '~' := by
          have := congrArg (List.head? ·) hw2; simpa using this.symm
        exact Or.inl ⟨w', by rw [hw1, hx]; rfl⟩
  · have hr2 : u ++ d = ('/' :: '/' :: '[' :: (revs ++ [']'])) ++ '~' :: r := by
      rw [hr]; simp
    rcases List.append_eq_append_iff.mp hr2 with ⟨w, _, hw2⟩ | ⟨w, hw1, hw2⟩
    · exact absurd (by rw [hw2]; simp : '~' ∈ d) hd
    · match w, hw2 with
      | [], hw2 =>
        exact absurd (by rw [List.nil_append] at hw2; rw [← hw2]; simp : '~' ∈ d) hd
      | x :: w', hw2 =>
        have hx : x = '~' := by
          have := congrArg (List.head? ·) hw2; simpa using this.symm
        refine Or.inr ⟨revs, w', ?_, hne, hall⟩
        rw [hw1, hx]; simp

/-! ### Properties of the leftmost scan -/

theorem findSigil_decomp {s b adj a : List Char}
    (h : findSigil s = some (b, adj, a)) :
    ∃ m, s = b ++ m ∧ matchSigilHere m = some (adj, a) := by
  induction s generalizing b with
  | nil => simp [findSigil] at h
  | cons c rest ih =>
    unfold findSigil at h
    rcases hm : matchSigilHere (c :: rest) with _ | ⟨adj', after'⟩
    · rw [hm] at h
      rcases hf : findSigil rest with _ | ⟨⟨b', adj2, a2⟩⟩
      · rw [hf] at h; exact absurd h (by simp)
      · rw [hf] at h
        simp only [Option.some.injEq, Prod.mk.injEq] at h
        obtain ⟨hb, hadj, ha⟩ := h
        subst hadj; subst ha
        obtain ⟨m, hm1, hm2⟩ := ih hf
        exact ⟨m, by rw [← hb, hm1]; rfl, hm2⟩
    · rw [hm] at h
      simp only [Option.some.injEq, Prod.mk.injEq] at h
      obtain ⟨hb, hadj, ha⟩ := h
      subst hadj; subst ha
      exact ⟨c :: rest, by rw [← hb]; rfl, hm⟩

theorem tilde_mem_of_findSigil {s : List Char} {x : List Char × List Char × List Char}
    (h : findSigil s = some x) : '~' ∈ s := by
  obtain ⟨b, adj, a⟩ := x
  obtain ⟨m, hm1, hm2⟩ := findSigil_decomp h
  have := tilde_mem_of_shape (shape_of_matchSigilHere hm2)
  rw [hm1]; exact List.mem_append_right _ this

theorem findSigil_isSome_append {u : List Char} (t : List Char)
    (h : (findSigil u).isSome = true) : (findSigil (u ++ t)).isSome = true := by
  induction u with
  | nil => simp [findSigil] at h
  | cons c rest ih =>
    rw [List.cons_append]
    unfold findSigil
    rcases hm2 : matchSigilHere (c :: (rest ++ t)) with _ | y
    · have hm : matchSigilHere (c :: rest) = none := by
        rcases hm : matchSigilHere (c :: rest) with _ | x
        · rfl
        · have hsh := shape_append t (shape_of_matchSigilHere hm)
          rw [List.cons_append] at hsh
          have := matchSigilHere_isSome_of_shape hsh
          rw [hm2] at this; exact absurd this (by simp)
      have hu : (findSigil rest).isSome = true := by
        unfold findSigil at h; rw [hm] at h
        rcases hf : findSigil rest with _ | x
        · rw [hf] at h; exact absurd h (by simp)
        · simp
      have := ih hu
      rcases hf2 : findSigil (rest ++ t) with _ | z
      · rw [hf2] at this; exact absurd this (by simp)
      · simp
    · simp

theorem findSigil_eq_none_append {u d : List Char} (hu : findSigil u = none)
    (hd : '~' ∉ d) : findSigil (u ++ d) = none := by
  induction u with
  | nil =>
    rcases hf : findSigil ([] ++ d) with _ | x
    · rfl
    · rw [List.nil_append] at hf
      exact absurd (tilde_mem_of_findSigil hf) hd
  | cons c rest ih =>
    have hm : matchSigilHere (c :: rest) = none := by
      unfold findSigil at hu
      rcases hm : matchSigilHere (c :: rest) with _ | x
      · rfl
      · rw [hm] at hu; exact absurd hu (by simp)
    have hrest : findSigil rest = none := by
      unfold findSigil at hu; rw [hm] at hu
      rcases hf : findSigil rest with _ | x
      · rfl
      · rw [hf] at hu; exact absurd hu (by simp)
    have hm2 : matchSigilHere (c :: (rest ++ d)) = none := by
      rcases hm2 : matchSigilHere (c :: (rest ++ d)) with _ | x
      · rfl
      · have hsh : SigilShape ((c :: rest) ++ d) := by
          rw [List.cons_append]; exact shape_of_matchSigilHere hm2
        have := matchSigilHere_isSome_of_shape (shape_unappend hsh hd)
        rw [hm] at this; exact absurd this (by simp)
    rw [List.cons_append]
    unfold findSigil
    rw [hm2, ih hrest]

theorem findSigil_before_none {s b adj a : List Char}
    (h : findSigil s = some (b, adj, a)) : findSigil b = none := by
  induction s generalizing b with
  | nil => simp [findSigil] at h
  | cons c rest ih =>
    unfold findSigil at h
    rcases hm : matchSigilHere (c :: rest) with _ | ⟨adj', after'⟩
    · rw [hm] at h
      rcases hf : findSigil rest with _ | ⟨⟨b', adj2, a2⟩⟩
      · rw [hf] at h; exact absurd h (by simp)
      · rw [hf] at h
        simp only [Option.some.injEq, Prod.mk.injEq] at h
        obtain ⟨hb, hadj, ha⟩ := h
        subst hadj; subst ha
        have hb' := ih hf
        obtain ⟨m, hm1, _⟩ := findSigil_decomp hf
        have hmc : matchSigilHere (c :: b') = none := by
          rcases hmc : matchSigilHere (c :: b') with _ | x
          · rfl
          · have hsh := shape_append m (shape_of_matchSigilHere hmc)
            rw [List.cons_append, ← hm1] at hsh
            have := matchSigilHere_isSome_of_shape hsh
            rw [hm] at this; exact absurd this (by simp)
        rw [← hb]
        unfold findSigil
        rw [hmc, hb']
    · rw [hm] at h
      simp only [Option.some.injEq, Prod.mk.injEq] at h
      obtain ⟨hb, _, _⟩ := h
      rw [← hb]; rfl

/-! ### Lines and trailing carriage returns -/

theorem chopCR_cases (l : List Char) :
    chopCR l = l ∨ ∃ a, l = a ++ ['\r'] ∧ chopCR l = a := by
  unfold chopCR
  split
  · rename_i a hrev
    exact Or.inr ⟨a.reverse, by rw [← List.reverse_reverse l, hrev]; simp, rfl⟩
  · exact Or.inl rfl

theorem mem_of_mem_chopCR {c : Char} {l : List Char} (h : c ∈ chopCR l) : c ∈ l := by
  rcases chopCR_cases l with he | ⟨a, hl, he⟩
  · rwa [he] at h
  · rw [he] at h; rw [hl]; exact List.mem_append_left _ h

theorem findSigil_chopCR_none {l : List Char} (h : findSigil l = none) :
    findSigil (chopCR l) = none := by
  rcases chopCR_cases l with he | ⟨a, hl, he⟩
  · rwa [he]
  · rw [he]
    rcases hf : findSigil a with _ | x
    · rfl
    · have := findSigil_isSome_append ['\r'] (by rw [hf]; rfl)
      rw [← hl, h] at this
      exact absurd this (by simp)

theorem strLinesAux_no_newline :
    ∀ (s acc : List Char), (∀ c ∈ acc, c ≠ '\n') →
      ∀ l ∈ strLinesAux acc s, '\n' ∉ l := by
  intro s
  induction s with
  | nil =>
    intro acc hacc l hl
    unfold strLinesAux at hl
    split at hl
    · exact absurd hl (by simp)
    · rw [List.mem_singleton] at hl
      subst hl
      intro hmem
      exact hacc _ (List.mem_reverse.mp hmem) rfl
  | cons c rest ih =>
    intro acc hacc l hl
    unfold strLinesAux at hl
    split at hl
    · rcases List.mem_cons.mp hl with rfl | hl
      · intro hmem
        exact hacc _ (List.mem_reverse.mp (mem_of_mem_chopCR hmem)) rfl
      · exact ih [] (by simp) l hl
    · rename_i hc
      refine ih (c :: acc) ?_ l hl
      intro d hd
      rcases List.mem_cons.mp hd with rfl | hd
      · exact hc
      · exact hacc d hd

theorem strLines_no_newline (s : List Char) : ∀ l ∈ strLines s, '\n' ∉ l :=
  strLinesAux_no_newline s [] (by simp)

theorem strLinesAux_append (l : List Char) (hl : ∀ c ∈ l, c ≠ '\n') :
    ∀ (acc rest : List Char),
      strLinesAux acc (l ++ rest) = strLinesAux (l.reverse ++ acc) rest := by
  induction l with
  | nil => intro acc rest; simp
  | cons c l' ih =>
    intro acc rest
    have hc : c ≠ '\n' := hl c (by simp)
    have h1 : strLinesAux acc ((c :: l') ++ rest) = strLinesAux (c :: acc) (l' ++ rest) := by
      rw [List.cons_append]
      show (if c = '\n' then chopCR acc.reverse :: strLinesAux [] (l' ++ rest)
            else strLinesAux (c :: acc) (l' ++ rest)) = _
      rw [if_neg hc]
    rw [h1, ih (fun d hd => hl d (by simp [hd])) (c :: acc) rest]
    congr 1
    simp

theorem strLines_joinNL (ls : List (List Char)) (h : ∀ l ∈ ls, '\n' ∉ l) :
    strLines (joinNL ls) = ls.map chopCR := by
  induction ls with
  | nil => simp [joinNL, strLines, strLinesAux]
  | cons l ls' ih =>
    have hjoin : joinNL (l :: ls') = l ++ '\n' :: joinNL ls' := rfl
    have hl : ∀ c ∈ l, c ≠ '\n' := by
      intro c hc he
      exact (h l (by simp)) (he ▸ hc)
    rw [List.map_cons, ← ih (fun m hm => h m (by simp [hm]))]
    show strLinesAux [] (joinNL (l :: ls')) = chopCR l :: strLines (joinNL ls')
    rw [hjoin, strLinesAux_append l hl [] _]
    unfold strLinesAux
    rw [if_pos rfl]
    congr 1
    simp

/-! ### Character sets of rendered directives -/

theorem digitChar_isDigit : ∀ k : Nat, (digitChar k).isDigit = true
  | 0 => by decide
  | 1 => by decide
  | 2 => by decide
  | 3 => by decide
  | 4 => by decide
  | 5 => by decide
  | 6 => by decide
  | 7 => by decide
  | 8 => by decide
  | (_ + 9) => by show ('9' : Char).isDigit = true; decide

theorem natReprAux_digits :
    ∀ (fuel n : Nat) (acc : List Char), (∀ c ∈ acc, c.isDigit = true) →
      ∀ c ∈ natReprAux fuel n acc, c.isDigit = true := by
  intro fuel
  induction fuel with
  | zero => intro n acc hacc c hc; exact hacc c hc
  | succ f ih =>
    intro n acc hacc c hc
    unfold natReprAux at hc
    have hacc' : ∀ c ∈ digitChar (n % 10) :: acc, c.isDigit = true := by
      intro d hd
      rcases List.mem_cons.mp hd with rfl | hd
      · exact digitChar_isDigit _
      · exact hacc d hd
    split at hc
    · exact hacc' c hc
    · exact ih (n / 10) _ hacc' c hc

theorem natRepr_digits (n : Nat) : ∀ c ∈ natRepr n, c.isDigit = true :=
  natReprAux_digits (n + 1) n [] (by simp)

theorem intRepr_chars (i : Int) : ∀ c ∈ intRepr i, c = '-' ∨ c.isDigit = true := by
  intro c hc
  unfold intRepr at hc
  split at hc
  · rcases List.mem_cons.mp hc with rfl | hc
    · exact Or.inl rfl
    · exact Or.inr (natRepr_digits _ c hc)
  · exact Or.inr (natRepr_digits _ c hc)

theorem is_error_code_chars {cd : List Char} (h : is_error_code cd = true) :
    ∀ c ∈ cd, c = 'E' ∨ c.isDigit = true := by
  unfold is_error_code at h
  split at h
  · rename_i ds
    rw [Bool.and_eq_true] at h
    intro c hc
    rcases List.mem_cons.mp hc with rfl | hc
    · exact Or.inl rfl
    · exact Or.inr (List.all_eq_true.mp h.2 c hc)
  · exact absurd h (by simp)

theorem error_display_chars {e : Error} {c : Char}
    (hgood : ∀ cd, e.error_code = some cd → is_error_code cd = true)
    (hc : c ∈ error_display e) : c ≠ '~' ∧ c ≠ '\n' := by
  simp only [error_display, List.mem_append] at hc
  rcases hc with ((((((hc | hc) | hc) | hc) | hc) | hc) | hc)
  · fin_cases hc <;> decide
  · split at hc <;> fin_cases hc <;> decide
  · fin_cases hc <;> decide
  · rcases he : e.error_code with _ | cd
    · rw [he] at hc; simp at hc
    · rw [he] at hc
      split at hc
      · exact absurd hc (by simp)
      · rcases List.mem_cons.mp hc with rfl | hc
        · decide
        · rcases List.mem_append.mp hc with hc | hc
          · rcases is_error_code_chars (hgood cd he) c hc with rfl | hd
            · decide
            · constructor <;> (intro he2; subst he2; exact absurd hd (by decide))
          · rw [List.mem_singleton] at hc; subst hc; decide
  · fin_cases hc <;> decide
  · split at hc
    · exact absurd hc (by simp)
    · rcases List.mem_cons.mp hc with rfl | hc
      · decide
      · rcases List.mem_append.mp hc with hc | hc
        · rcases intRepr_chars _ c hc with rfl | hd
          · decide
          · constructor <;> (intro he2; subst he2; exact absurd hd (by decide))
        · rw [List.mem_singleton] at hc; subst hc; decide
  · rw [List.mem_singleton] at hc; subst hc; decide

/-! ### Shape of `parse_expected` results -/

theorem parse_expected_noMatch_iff {last : Option Nat} {n : Nat} {line : List Char} :
    parse_expected last n line = .noMatch ↔ findSigil line = none := by
  unfold parse_expected
  rcases hf : findSigil line with _ | ⟨⟨b, adj, rest⟩⟩
  · simp
  · simp only [iff_false_intro (Option.some_ne_none _), iff_false]
    intro h
    revert h
    split
    · simp
    · split
      · split
        · simp
        · split <;> simp
      · split <;> simp

theorem parse_expected_ok_origin {last : Option Nat} {n : Nat} {line : List Char}
    {w : WhichLine} {e : Error} (h : parse_expected last n line = .ok w e) :
    (e.line_num : Int) - e.relative_line_num = (n : Int) ∧
    e.error_code = none ∧ (findSigil line).isSome = true := by
  unfold parse_expected at h
  rcases hf : findSigil line with _ | ⟨⟨b, adj, rest⟩⟩
  · rw [hf] at h; exact absurd h (by simp)
  · rw [hf] at h
    by_cases h1 : trimLeft rest = []
    · simp [h1] at h
    · by_cases h2 : adj = ['|']
      · rcases last with _ | a
        · simp [h1, h2] at h
        · simp [h1, h2] at h
          obtain ⟨-, he⟩ := h
          subst he
          exact ⟨by dsimp only; omega, rfl, rfl⟩
      · by_cases h3 : n < adj.length
        · simp [h1, h2, h3] at h
        · simp [h1, h2, h3] at h
          obtain ⟨-, he⟩ := h
          subst he
          exact ⟨by dsimp only; omega, rfl, rfl⟩

end RustToDg

namespace RustToDg

/- Validation against the repository's own unit test
(src/transform.rs:73): the sample annotation converts to the expected
DejaGnu directive line. -/
example : transform_code "//~^ ERROR expected one of `:`, `@`, or `|`, found `)`".toList none =
    .ok "// \x7b dg-error \"\" \"\" \x7b target *-*-* \x7d .-1 \x7d\n".toList := by decide

end RustToDg

namespace RustToDg

/-! ### Properties of the extraction loop -/

theorem load_error_go_mem :
    ∀ (ls : List (List Char)) (last : Option Nat) (idx : Nat) (errs : List Error),
      load_error_go last idx ls = .ok errs →
      ∀ e ∈ errs, ∃ j l, ls[j]? = some l ∧
        (e.line_num : Int) - e.relative_line_num = ((idx + j + 1 : Nat) : Int) ∧
        (findSigil l).isSome = true ∧ e.error_code = none := by
  intro ls
  induction ls with
  | nil =>
    intro last idx errs h e he
    unfold load_error_go at h
    simp only [Except.ok.injEq] at h
    subst h
    exact absurd he (by simp)
  | cons l rest ih =>
    intro last idx errs h e he
    unfold load_error_go at h
    rcases hp : parse_expected last (idx + 1) l with _ | m | ⟨w, e0⟩
    · rw [hp] at h
      obtain ⟨j, l', h1, h2, h3, h4⟩ := ih last (idx + 1) errs h e he
      refine ⟨j + 1, l', by simpa using h1, ?_, h3, h4⟩
      rw [h2]
      congr 1
      omega
    · rw [hp] at h; exact absurd h (by simp)
    · rw [hp] at h
      dsimp only at h
      rcases hr : load_error_go (update_anchor last idx w) (idx + 1) rest
        with m2 | rest_errs
      · rw [hr] at h; exact absurd h (by simp)
      · rw [hr] at h
        simp only [Except.ok.injEq] at h
        subst h
        rcases List.mem_cons.mp he with rfl | he
        · obtain ⟨horig, hcode, hsig⟩ := parse_expected_ok_origin hp
          exact ⟨0, l, by simp, by simpa using horig, hsig, hcode⟩
        · obtain ⟨j, l', h1, h2, h3, h4⟩ := ih _ (idx + 1) rest_errs hr e he
          refine ⟨j + 1, l', by simpa using h1, ?_, h3, h4⟩
          rw [h2]
          congr 1
          omega

theorem load_error_go_complete :
    ∀ (ls : List (List Char)) (last : Option Nat) (idx : Nat) (errs : List Error),
      load_error_go last idx ls = .ok errs →
      ∀ j l, ls[j]? = some l → (findSigil l).isSome = true →
        ∃ e ∈ errs, (e.line_num : Int) - e.relative_line_num = ((idx + j + 1 : Nat) : Int) := by
  intro ls
  induction ls with
  | nil => intro last idx errs h j l hj; simp at hj
  | cons l0 rest ih =>
    intro last idx errs h j l hj hsig
    unfold load_error_go at h
    rcases hp : parse_expected last (idx + 1) l0 with _ | m | ⟨w, e0⟩
    · rw [hp] at h
      rcases j with _ | j
      · simp only [List.getElem?_cons_zero, Option.some.injEq] at hj
        subst hj
        rw [parse_expected_noMatch_iff.mp hp] at hsig
        exact absurd hsig (by simp)
      · obtain ⟨e, he, horig⟩ := ih last (idx + 1) errs h j l (by simpa using hj) hsig
        refine ⟨e, he, ?_⟩
        rw [horig]
        congr 1
        omega
    · rw [hp] at h; exact absurd h (by simp)
    · rw [hp] at h
      dsimp only at h
      rcases hr : load_error_go (update_anchor last idx w) (idx + 1) rest
        with m2 | rest_errs
      · rw [hr] at h; exact absurd h (by simp)
      · rw [hr] at h
        simp only [Except.ok.injEq] at h
        subst h
        rcases j with _ | j
        · obtain ⟨horig, -, -⟩ := parse_expected_ok_origin hp
          exact ⟨e0, by simp, by simpa using horig⟩
        · obtain ⟨e, he, horig⟩ := ih _ (idx + 1) rest_errs hr j l (by simpa using hj) hsig
          refine ⟨e, List.mem_cons_of_mem _ he, ?_⟩
          rw [horig]
          congr 1
          omega

theorem load_error_go_all_none :
    ∀ (ls : List (List Char)) (last : Option Nat) (idx : Nat),
      (∀ l ∈ ls, findSigil l = none) → load_error_go last idx ls = .ok [] := by
  intro ls
  induction ls with
  | nil => intro last idx _; rfl
  | cons l rest ih =>
    intro last idx h
    have hp : parse_expected last (idx + 1) l = .noMatch :=
      parse_expected_noMatch_iff.mpr (h l (by simp))
    unfold load_error_go
    rw [hp]
    exact ih last (idx + 1) (fun l' hl' => h l' (by simp [hl']))

/-! ### Properties of code resolution -/

theorem assign_step_fields (r : StderrResult) (x : Error) :
    ((if x.line_num = r.line_number ∨ x.msg = r.error_message_detail then
        { x with error_code := some r.error_code } else x) : Error).line_num = x.line_num ∧
    ((if x.line_num = r.line_number ∨ x.msg = r.error_message_detail then
        { x with error_code := some r.error_code } else x) : Error).relative_line_num
        = x.relative_line_num ∧
    ((if x.line_num = r.line_number ∨ x.msg = r.error_message_detail then
        { x with error_code := some r.error_code } else x) : Error).kind = x.kind ∧
    ((if x.line_num = r.line_number ∨ x.msg = r.error_message_detail then
        { x with error_code := some r.error_code } else x) : Error).msg = x.msg := by
  split <;> exact ⟨rfl, rfl, rfl, rfl⟩

theorem assign_fields (entries : List StderrResult) (e : Error) :
    (assign_error_code entries e).line_num = e.line_num ∧
    (assign_error_code entries e).relative_line_num = e.relative_line_num ∧
    (assign_error_code entries e).kind = e.kind ∧
    (assign_error_code entries e).msg = e.msg := by
  induction entries generalizing e with
  | nil => exact ⟨rfl, rfl, rfl, rfl⟩
  | cons r rs ih =>
    have hstep := assign_step_fields r e
    have hrec := ih ((if e.line_num = r.line_number ∨ e.msg = r.error_message_detail then
        { e with error_code := some r.error_code } else e) : Error)
    refine ⟨?_, ?_, ?_, ?_⟩
    · exact hrec.1.trans hstep.1
    · exact hrec.2.1.trans hstep.2.1
    · exact hrec.2.2.1.trans hstep.2.2.1
    · exact hrec.2.2.2.trans hstep.2.2.2

theorem assign_code_or (entries : List StderrResult) (e : Error) :
    (assign_error_code entries e).error_code = e.error_code ∨
    ∃ r ∈ entries, (assign_error_code entries e).error_code = some r.error_code := by
  induction entries generalizing e with
  | nil => exact Or.inl rfl
  | cons r rs ih =>
    have hrec := ih ((if e.line_num = r.line_number ∨ e.msg = r.error_message_detail then
        { e with error_code := some r.error_code } else e) : Error)
    rcases hrec with h | ⟨r', hr', h⟩
    · by_cases hc : e.line_num = r.line_number ∨ e.msg = r.error_message_detail
      · refine Or.inr ⟨r, by simp, ?_⟩
        rw [show assign_error_code (r :: rs) e =
          assign_error_code rs (if e.line_num = r.line_number ∨
            e.msg = r.error_message_detail then
            { e with error_code := some r.error_code } else e) from rfl]
        rw [h, if_pos hc]
      · refine Or.inl ?_
        rw [show assign_error_code (r :: rs) e =
          assign_error_code rs (if e.line_num = r.line_number ∨
            e.msg = r.error_message_detail then
            { e with error_code := some r.error_code } else e) from rfl]
        rw [h, if_neg hc]
    · exact Or.inr ⟨r', List.mem_cons_of_mem _ hr', h⟩

end RustToDg

namespace RustToDg

/-! ### Facts about `load_error` as a whole -/

theorem load_error_cases {text : List Char} {stderr : Option (List StderrResult)}
    {errs : List Error} (h : load_error text stderr = .ok errs) :
    ∃ errs0, load_error_go none 0 (strLines text) = .ok errs0 ∧
      ((stderr = none ∧ errs = errs0) ∨
        (∃ es, stderr = some es ∧ errs = errs0.map (assign_error_code es))) := by
  unfold load_error at h
  rcases hg : load_error_go none 0 (strLines text) with m | errs0
  · rw [hg] at h; exact absurd h (by simp)
  · rw [hg] at h
    rcases stderr with _ | es
    · simp only [Except.ok.injEq] at h
      exact ⟨errs0, rfl, Or.inl ⟨rfl, h.symm⟩⟩
    · simp only [Except.ok.injEq] at h
      exact ⟨errs0, rfl, Or.inr ⟨es, rfl, h.symm⟩⟩

theorem load_error_mem_origin {text : List Char} {stderr : Option (List StderrResult)}
    {errs : List Error} (h : load_error text stderr = .ok errs) :
    ∀ e ∈ errs, (StderrCodesOk stderr → GoodCode e) ∧
      ∃ j l, (strLines text)[j]? = some l ∧
      (e.line_num : Int) - e.relative_line_num = ((j + 1 : Nat) : Int) ∧
      (findSigil l).isSome = true := by
  obtain ⟨errs0, hg, hcase⟩ := load_error_cases h
  rcases hcase with ⟨-, rfl⟩ | ⟨es, hes, rfl⟩
  · intro e he
    obtain ⟨j, l, h1, h2, h3, h4⟩ := load_error_go_mem _ none 0 _ hg e he
    refine ⟨fun _ cd hcd => absurd (h4 ▸ hcd) (by simp), j, l, h1, ?_, h3⟩
    rw [h2]; congr 1; omega
  · subst hes
    intro e he
    obtain ⟨e0, he0, rfl⟩ := List.mem_map.mp he
    obtain ⟨j, l, h1, h2, h3, h4⟩ := load_error_go_mem _ none 0 errs0 hg e0 he0
    have hf := assign_fields es e0
    constructor
    · intro hst cd hcd
      rcases assign_code_or es e0 with hco | ⟨r, hr, hco⟩
      · rw [hco, h4] at hcd; exact absurd hcd (by simp)
      · rw [hco] at hcd
        have : r.error_code = cd := by injection hcd
        exact this ▸ hst r hr
    · refine ⟨j, l, h1, ?_, h3⟩
      rw [hf.1, hf.2.1, h2]; congr 1; omega

theorem load_error_complete_origin {text : List Char}
    {stderr : Option (List StderrResult)} {errs : List Error}
    (h : load_error text stderr = .ok errs) :
    ∀ j l, (strLines text)[j]? = some l → (findSigil l).isSome = true →
      ∃ e ∈ errs, (e.line_num : Int) - e.relative_line_num = ((j + 1 : Nat) : Int) := by
  obtain ⟨errs0, hg, hcase⟩ := load_error_cases h
  intro j l hj hs
  obtain ⟨e0, he0, horig⟩ := load_error_go_complete _ none 0 _ hg j l hj hs
  rcases hcase with ⟨-, rfl⟩ | ⟨es, -, rfl⟩
  · exact ⟨e0, he0, by rw [horig]; congr 1; omega⟩
  · refine ⟨assign_error_code es e0, List.mem_map_of_mem _ he0, ?_⟩
    have hf := assign_fields es e0
    rw [hf.1, hf.2.1, horig]; congr 1; omega

/-! ### Facts about the rewriting loop -/

theorem transform_lines_length :
    ∀ (errors : List Error) (n : Int) (ls out : List (List Char)),
      transform_lines errors n ls = .ok out → out.length = ls.length := by
  intro errors n ls
  induction ls generalizing n with
  | nil =>
    intro out h
    unfold transform_lines at h
    simp only [Except.ok.injEq] at h
    subst h; rfl
  | cons l rest ih =>
    intro out h
    unfold transform_lines at h
    rcases h1 : transform_line errors n l with m | nl
    · rw [h1] at h; exact absurd h (by simp)
    · rw [h1] at h
      rcases h2 : transform_lines errors (n + 1) rest with m | outr
      · rw [h2] at h; exact absurd h (by simp)
      · rw [h2] at h
        simp only [Except.ok.injEq] at h
        subst h
        simp [ih (n + 1) outr h2]

theorem transform_line_cases (errors : List Error) (n : Int) (line nl : List Char)
    (h : transform_line errors n line = .ok nl) :
    (errors.find? (fun e =>
        decide ((e.line_num : Int) - e.relative_line_num = n)) = none ∧ nl = line) ∨
    (∃ e, errors.find? (fun e =>
        decide ((e.line_num : Int) - e.relative_line_num = n)) = some e ∧
      ((e.relative_line_num ≠ 0 ∧ nl = error_display e) ∨
        (e.relative_line_num = 0 ∧ ∃ b adj rest,
          findSigil line = some (b, adj, rest) ∧ nl = b ++ error_display e))) := by
  unfold transform_line at h
  rcases hfind : errors.find? (fun e =>
      decide ((e.line_num : Int) - e.relative_line_num = n)) with _ | e
  · rw [hfind] at h
    simp only [Except.ok.injEq] at h
    exact Or.inl ⟨hfind, h.symm⟩
  · rw [hfind] at h
    dsimp only at h
    by_cases hrel : e.relative_line_num ≠ 0
    · rw [if_pos hrel] at h
      simp only [Except.ok.injEq] at h
      exact Or.inr ⟨e, hfind, Or.inl ⟨hrel, h.symm⟩⟩
    · rw [if_neg hrel] at h
      rcases hf : findSigil line with _ | ⟨⟨b, adj, rest⟩⟩
      · rw [hf] at h; exact absurd h (by simp)
      · rw [hf] at h
        simp only [Except.ok.injEq] at h
        exact Or.inr ⟨e, hfind, Or.inr ⟨not_not.mp hrel, b, adj, rest, rfl, h.symm⟩⟩

end RustToDg

namespace RustToDg

/-- Every line emitted by the rewriting loop is free of the annotation
sigil and of newlines, provided extraction was complete for the input
lines and all record codes have the companion shape. -/
theorem transform_lines_rewritten :
    ∀ (errs : List Error) (ls : List (List Char)) (idx : Nat)
      (out : List (List Char)),
      (∀ j l, ls[j]? = some l → (findSigil l).isSome = true →
        ∃ e ∈ errs, (e.line_num : Int) - e.relative_line_num
          = ((idx + j + 1 : Nat) : Int)) →
      (∀ e ∈ errs, GoodCode e) →
      (∀ l ∈ ls, '\n' ∉ l) →
      transform_lines errs ((idx + 1 : Nat) : Int) ls = .ok out →
      ∀ nl ∈ out, findSigil nl = none ∧ '\n' ∉ nl := by
  intro errs ls
  induction ls with
  | nil =>
    intro idx out _ _ _ h nl hnl
    unfold transform_lines at h
    simp only [Except.ok.injEq] at h
    subst h
    exact absurd hnl (by simp)
  | cons l rest ih =>
    intro idx out hcomp hgood hnl h
    unfold transform_lines at h
    rcases h1 : transform_line errs ((idx + 1 : Nat) : Int) l with m | nl0
    · rw [h1] at h; exact absurd h (by simp)
    · rw [h1] at h
      rcases h2 : transform_lines errs (((idx + 1 : Nat) : Int) + 1) rest
        with m | outr
      · rw [h2] at h; exact absurd h (by simp)
      · rw [h2] at h
        simp only [Except.ok.injEq] at h
        subst h
        intro nl hnlmem
        rcases List.mem_cons.mp hnlmem with rfl | hmem
        · rcases transform_line_cases _ _ _ _ h1 with ⟨hfind, rfl⟩ | ⟨e, hfind, hcase⟩
          · constructor
            · rcases hf : findSigil nl with _ | x
              · rfl
              · exfalso
                obtain ⟨e, he, horig⟩ := hcomp 0 nl (by simp) (by rw [hf]; rfl)
                have hne := List.find?_eq_none.mp hfind e he
                apply hne
                simp only [decide_eq_true_eq]
                rw [horig]
            · exact hnl nl (by simp)
          · have he : e ∈ errs := List.mem_of_find?_eq_some hfind
            have hgc := hgood e he
            have hndisp : '~' ∉ error_display e :=
              fun hm => (error_display_chars hgc hm).1 rfl
            have hn2 : '\n' ∉ error_display e :=
              fun hm => (error_display_chars hgc hm).2 rfl
            rcases hcase with ⟨-, rfl⟩ | ⟨-, b, adj, rest2, hf, rfl⟩
            · constructor
              · rcases hfx : findSigil (error_display e) with _ | x
                · rfl
                · exact absurd (tilde_mem_of_findSigil hfx) hndisp
              · exact hn2
            · constructor
              · exact findSigil_eq_none_append (findSigil_before_none hf) hndisp
              · intro hmem2
                rcases List.mem_append.mp hmem2 with hb | hd
                · obtain ⟨m, hm1, -⟩ := findSigil_decomp hf
                  exact (hnl l (by simp)) (hm1 ▸ List.mem_append_left _ hb)
                · exact hn2 hd
        · refine ih (idx + 1) outr ?_ hgood
            (fun l' hl' => hnl l' (by simp [hl'])) ?_ nl hmem
          · intro j l' hj hs
            obtain ⟨e, he, horig⟩ := hcomp (j + 1) l' (by simpa using hj) hs
            refine ⟨e, he, ?_⟩
            rw [horig]
            congr 1
            omega
          · have hc : (((idx : Nat) + 1 : Nat) : Int) + 1
                = (((idx + 1 : Nat) + 1 : Nat) : Int) := by push_cast; ring
            rw [← hc]
            exact h2

/-- Lines whose text contains no annotation sigil pass through the
rewriting loop unchanged, provided every record's reconstructed origin
line carries a sigil. -/
theorem transform_lines_keep :
    ∀ (errs : List Error) (ls : List (List Char)) (idx : Nat)
      (out : List (List Char)),
      (∀ e ∈ errs, ∀ (j : Nat) (l : List Char), ls[j]? = some l →
        (e.line_num : Int) - e.relative_line_num = ((idx + j + 1 : Nat) : Int) →
        (findSigil l).isSome = true) →
      transform_lines errs ((idx + 1 : Nat) : Int) ls = .ok out →
      ∀ (j : Nat) (l : List Char), ls[j]? = some l → findSigil l = none →
        out[j]? = some l := by
  intro errs ls
  induction ls with
  | nil => intro idx out _ _ j l hj; simp at hj
  | cons l0 rest ih =>
    intro idx out hmem h j l hj hfn
    unfold transform_lines at h
    rcases h1 : transform_line errs ((idx + 1 : Nat) : Int) l0 with m | nl0
    · rw [h1] at h; exact absurd h (by simp)
    · rw [h1] at h
      rcases h2 : transform_lines errs (((idx + 1 : Nat) : Int) + 1) rest
        with m | outr
      · rw [h2] at h; exact absurd h (by simp)
      · rw [h2] at h
        simp only [Except.ok.injEq] at h
        subst h
        rcases j with _ | j
        · simp only [List.getElem?_cons_zero, Option.some.injEq] at hj
          subst hj
          rcases transform_line_cases _ _ _ _ h1 with ⟨-, rfl⟩ | ⟨e, hfind, -⟩
          · simp
          · exfalso
            have he : e ∈ errs := List.mem_of_find?_eq_some hfind
            have hp := List.find?_some hfind
            simp only [decide_eq_true_eq] at hp
            have := hmem e he 0 l0 (by simp) (by rw [hp])
            rw [hfn] at this
            exact absurd this (by simp)
        · simp only [List.getElem?_cons_succ]
          refine ih (idx + 1) outr ?_ ?_ j l (by simpa using hj) hfn
          · intro e he j' l' hj' horig
            refine hmem e he (j' + 1) l' (by simpa using hj') ?_
            rw [horig]
            congr 1
            omega
          · have hc : (((idx : Nat) + 1 : Nat) : Int) + 1
                = (((idx + 1 : Nat) + 1 : Nat) : Int) := by push_cast; ring
            rw [← hc]
            exact h2

end RustToDg

namespace RustToDg

/-- The inner resolution loop implements the last-match tie-break: the
code written is the one of the last matching companion entry in scan
order, and a record with no matching entry is left unchanged. -/
theorem assign_last_match (entries : List StderrResult) (e : Error) :
    assign_error_code entries e =
      match (entries.filter (fun r =>
          decide (e.line_num = r.line_number ∨
            e.msg = r.error_message_detail))).getLast? with
      | none => e
      | some r => { e with error_code := some r.error_code } := by
  induction entries using List.reverseRecOn with
  | nil => rfl
  | append_singleton rs r ih =>
    have hfold : assign_error_code (rs ++ [r]) e =
        (if (assign_error_code rs e).line_num = r.line_number ∨
            (assign_error_code rs e).msg = r.error_message_detail then
          { assign_error_code rs e with error_code := some r.error_code }
        else assign_error_code rs e) := by
      unfold assign_error_code
      rw [List.foldl_append]
      rfl
    have hfl := assign_fields rs e
    have hcond : ((assign_error_code rs e).line_num = r.line_number ∨
        (assign_error_code rs e).msg = r.error_message_detail) ↔
        (e.line_num = r.line_number ∨ e.msg = r.error_message_detail) := by
      rw [hfl.1, hfl.2.2.2]
    rw [List.filter_append]
    by_cases hc : e.line_num = r.line_number ∨ e.msg = r.error_message_detail
    · have hfr : List.filter (fun r' =>
          decide (e.line_num = r'.line_number ∨
            e.msg = r'.error_message_detail)) [r] = [r] := by simp [hc]
      rw [hfr, hfold, if_pos (hcond.mpr hc), List.getLast?_concat, ih]
      rcases hlast : (rs.filter (fun r' =>
          decide (e.line_num = r'.line_number ∨
            e.msg = r'.error_message_detail))).getLast? with _ | r'
      · rw [hlast]
      · rw [hlast]
    · have hfr : List.filter (fun r' =>
          decide (e.line_num = r'.line_number ∨
            e.msg = r'.error_message_detail)) [r] = [] := by simp [hc]
      rw [hfr, List.append_nil, hfold, if_neg (fun hcc => hc (hcond.mp hcc)), ih]

/-- Decomposition of a successful `transform_code` run into its load,
rewrite and join stages. -/
theorem transform_code_parts {code : List Char}
    {stderr : Option (List StderrResult)} {out : List Char}
    (h : transform_code code stderr = .ok out) :
    ∃ errs newLines, load_error code stderr = .ok errs ∧
      transform_lines errs 1 (strLines code) = .ok newLines ∧
      out = joinNL newLines := by
  unfold transform_code at h
  rcases h1 : load_error code stderr with m | errs
  · rw [h1] at h; exact absurd h (by simp)
  · rw [h1] at h
    dsimp only at h
    rcases h2 : transform_lines errs 1 (strLines code) with m | nls
    · rw [h2] at h; exact absurd h (by simp)
    · rw [h2] at h
      simp only [Except.ok.injEq] at h
      exact ⟨errs, nls, rfl, h2, h.symm⟩

/-- A text none of whose lines matches the annotation recognizer extracts
to zero records. -/
theorem load_error_all_none {text : List Char}
    (h : ∀ l ∈ strLines text, findSigil l = none) :
    load_error text none = .ok [] := by
  unfold load_error
  rw [load_error_go_all_none _ none 0 h]

end RustToDg

namespace RustToDg

/-! ### Helper computations for the caret-run line family -/

theorem matchAdjust_caret (n : Nat) (tail : List Char) :
    matchAdjust (List.replicate n '^' ++ ' ' :: tail) =
      (List.replicate n '^', ' ' :: tail) := by
  have hall : ∀ c ∈ List.replicate n '^', (decide (c = '^')) = true := by
    intro c hc
    simp [List.eq_of_mem_replicate hc]
  have ht := takeWhile_append_cons (fun c => decide (c = '^'))
    (List.replicate n '^') ' ' tail hall (by decide)
  have hd := dropWhile_append_cons (fun c => decide (c = '^'))
    (List.replicate n '^') ' ' tail hall (by decide)
  cases n with
  | zero =>
    show matchAdjust (' ' :: tail) = ([], ' ' :: tail)
    rfl
  | succ k =>
    rw [List.replicate_succ, List.cons_append]
    show ((('^' :: (List.replicate k '^' ++ ' ' :: tail)).takeWhile (· = '^')),
        (('^' :: (List.replicate k '^' ++ ' ' :: tail)).dropWhile (· = '^'))) = _
    rw [← List.cons_append, ← List.replicate_succ, ht, hd]

theorem findSigil_caret_line (n : Nat) (tail : List Char) :
    findSigil ('/' :: '/' :: '~' :: (List.replicate n '^' ++ ' ' :: tail)) =
      some ([], List.replicate n '^', ' ' :: tail) := by
  have hm : matchSigilHere ('/' :: '/' :: '~' ::
      (List.replicate n '^' ++ ' ' :: tail)) =
      some (List.replicate n '^', ' ' :: tail) := by
    show some (matchAdjust (List.replicate n '^' ++ ' ' :: tail)) = _
    rw [matchAdjust_caret]
  unfold findSigil
  rw [hm]

end RustToDg

namespace RustToDg

/-- C5 (amended): for an annotation line carrying a run of `n ≥ 1` carets
followed by a word, extraction fails fatally (debug-mode subtraction
overflow) exactly when `n` exceeds the 1-based line number `L`; when
`n ≤ L` — including the boundary case `n = L`, which the claim said was
fatal — it produces a record with `target_line = L - n` (which is `0`
when `n = L`) and `relative_offset = -n`. -/
theorem claim5_adjust_backward (last : Option Nat) (L n : Nat) (tail : List Char)
    (hn : 1 ≤ n) (hw : trimLeft (' ' :: tail) ≠ []) :
    (L < n → parse_expected last L ('/' :: '/' :: '~' ::
        (List.replicate n '^' ++ ' ' :: tail)) = .fatal subOverflowMsg) ∧
    (n ≤ L → ∃ k m, parse_expected last L ('/' :: '/' :: '~' ::
        (List.replicate n '^' ++ ' ' :: tail)) =
      .ok (.AdjustBackward n) ⟨L - n, -(n : Int), k, m, none⟩) := by
  have hf := findSigil_caret_line n tail
  have hne : List.replicate n '^' ≠ (['|'] : List Char) := by
    rcases n with _ | k
    · exact absurd hn (by omega)
    · rw [List.replicate_succ]
      intro hcon
      have hh := congrArg (List.head? ·) hcon
      simp at hh
  unfold parse_expected
  rw [hf]
  dsimp only
  rw [if_neg hw]
  simp only [if_neg hne, List.length_replicate]
  constructor
  · intro hlt
    rw [if_pos hlt]
  · intro hle
    rw [if_neg (by omega : ¬ L < n), if_pos (by omega : n > 0)]
    exact ⟨_, _, rfl⟩

/-- C6 (amended): the empty-comment fatal error fires exactly when the
text after the sigil contains no word at all (it is empty or all
whitespace); an annotation carrying only a recognized kind word — the
claim's `//~ WARN` shape that it said was fatal — succeeds, producing a
record with an empty message. -/
theorem claim6_empty_comment :
    (∀ (last : Option Nat) (n : Nat) (line b adj rest : List Char),
      findSigil line = some (b, adj, rest) →
      (parse_expected last n line = .fatal emptyCommentMsg ↔
        trimLeft rest = [])) ∧
    parse_expected none 3 "//~ WARN".toList =
      .ok .ThisLine ⟨3, 0, some .Warning, [], none⟩ := by
  constructor
  · intro last n line b adj rest hf
    unfold parse_expected
    rw [hf]
    dsimp only
    constructor
    · intro h
      by_contra hne
      rw [if_neg hne] at h
      revert h
      split
      · split
        · intro hcc
          exact absurd (ParseResult.fatal.inj hcc) (by decide)
        · split
          · intro hcc
            exact absurd (ParseResult.fatal.inj hcc) (by decide)
          · intro hcc
            exact ParseResult.noConfusion hcc
      · split
        · intro hcc
          exact absurd (ParseResult.fatal.inj hcc) (by decide)
        · intro hcc
          exact ParseResult.noConfusion hcc
    · intro h
      rw [if_pos h]
  · decide

/-- C7 (amended): the conflicting-marker panic can never fire: whenever
the recognizer takes the continuation branch the caret count is zero by
construction, so for no input does extraction fail with the
conflicting-marker message, and `//~|^ msg` parses as a follow annotation
with the carets left in the message. -/
theorem claim7_no_conflict_fatal :
    ∀ (last : Option Nat) (n : Nat) (line : List Char),
      parse_expected last n line ≠ .fatal conflictMsg := by
  intro last n line
  unfold parse_expected
  rcases hf : findSigil line with _ | ⟨⟨b, adj, rest⟩⟩
  · simp
  · dsimp only
    by_cases h1 : trimLeft rest = []
    · rw [if_pos h1]
      intro hcc
      exact absurd (ParseResult.fatal.inj hcc) (by decide)
    · rw [if_neg h1]
      by_cases h2 : adj = ['|']
      · simp only [if_pos h2]
        rw [if_neg (by simp : ¬ (0 : Nat) ≠ 0)]
        rcases last with _ | a
        · intro hcc
          exact absurd (ParseResult.fatal.inj hcc) (by decide)
        · intro hcc
          exact ParseResult.noConfusion hcc
      · simp only [if_neg h2]
        by_cases h3 : n < adj.length
        · rw [if_pos h3]
          intro hcc
          exact absurd (ParseResult.fatal.inj hcc) (by decide)
        · rw [if_neg h3]
          intro hcc
          exact ParseResult.noConfusion hcc

end RustToDg

namespace RustToDg

/-- C8: for every record whose code is unset or nonempty (as every record
consumed by the rewriter is, since resolved codes have the `E\d{4}`
shape), the emitted directive text is exactly
`// { <kind-tag> "<code>" "" { target *-*-* } <offset-suffix>}` with the
kind tags, dot-delimited code and signed-offset suffix of the claim. -/
theorem claim8_directive_format (e : Error)
    (hc : e.error_code = none ∨ ∃ c, e.error_code = some c ∧ c ≠ []) :
    error_display e =
      "// \x7b ".toList ++
      (match e.kind with
        | some .Help => "help".toList
        | some .Error => "dg-error".toList
        | some .Note => "dg-note".toList
        | some .Suggestion => "suggestion".toList
        | some .Warning => "dg-warning".toList
        | none => "dg-error".toList) ++
      " \"".toList ++
      (match e.error_code with
        | none => []
        | some c => '.' :: (c ++ ['.'])) ++
      "\" \"\" \x7b target *-*-* \x7d ".toList ++
      (if e.relative_line_num = 0 then []
        else '.' :: (intRepr e.relative_line_num ++ [' '])) ++ ['\x7d'] := by
  unfold error_display
  rcases hc with hc | ⟨c, hc, hne⟩
  · rw [hc]
    rfl
  · rw [hc]
    dsimp only
    rw [if_neg hne]

theorem claim8_witness :
    error_display ⟨2, -1, some .Warning, "m".toList, some "E0308".toList⟩ =
      "// \x7b dg-warning \".E0308.\" \"\" \x7b target *-*-* \x7d .-1 \x7d".toList := by
  have h := claim8_directive_format
    ⟨2, -1, some .Warning, "m".toList, some "E0308".toList⟩
    (Or.inr ⟨"E0308".toList, rfl, by decide⟩)
  rw [h]
  decide

/-- C10: `parse_edition_directive` yields a value exactly when the line
starts with the directive string immediately followed by a colon; on
every other line the unwrapped value is `None` (modelled as the `none`
result, standing for the panic), with no fallback. -/
theorem claim10_parse_edition_partial (line directive : List Char) :
    (parse_edition_directive line directive).isSome = true ↔
      (directive ++ [':']).isPrefixOf line = true := by
  have hiff : ∀ (d l : List Char),
      ((d.isPrefixOf l = true) ∧ l.get? d.length = some ':') ↔
        (d ++ [':']).isPrefixOf l = true := by
    intro d
    induction d with
    | nil =>
      intro l
      cases l with
      | nil => simp [List.isPrefixOf]
      | cons c cs =>
        simp only [List.isPrefixOf, List.nil_append, List.get?,
          List.length_nil, Bool.and_eq_true, beq_iff_eq, true_and,
          Option.some.injEq]
        constructor
        · rintro h
          exact ⟨h.symm, by simp [List.isPrefixOf]⟩
        · rintro ⟨h, -⟩
          exact h.symm
    | cons a d' ih =>
      intro l
      cases l with
      | nil => simp [List.isPrefixOf]
      | cons b bs =>
        have h1 : ((a :: d').isPrefixOf (b :: bs) = true) ↔
            (a = b ∧ d'.isPrefixOf bs = true) := by
          simp [List.isPrefixOf]
        have h2 : (((a :: d') ++ [':']).isPrefixOf (b :: bs) = true) ↔
            (a = b ∧ (d' ++ [':']).isPrefixOf bs = true) := by
          simp [List.isPrefixOf]
        have h3 : (b :: bs).get? (a :: d').length = bs.get? d'.length := by
          simp [List.get?]
        rw [h2, ← ih bs, h1, h3]
        tauto
  unfold parse_edition_directive
  by_cases hcond : directive.isPrefixOf line ∧
      line.get? directive.length = some ':'
  · rw [if_pos hcond]
    constructor
    · intro _
      exact (hiff directive line).mp ⟨hcond.1, hcond.2⟩
    · intro _
      rfl
  · rw [if_neg hcond]
    constructor
    · intro hcc
      exact absurd hcc (by simp)
    · intro hpre
      exact absurd ⟨((hiff directive line).mpr hpre).1,
        ((hiff directive line).mpr hpre).2⟩ hcond

end RustToDg

namespace RustToDg

/-- C1: the claim says a this-line annotation at source line 5 sets the
anchor to 5, so a follow annotation at line 6 resolves to
`target_line = 5`, `relative_offset = -1`.  The code stores the 0-based
`enumerate` index as the anchor while numbering lines 1-based, so the
follow record actually resolves to `target_line = 4`,
`relative_offset = -2`, as this evaluation shows. -/
theorem claim1_follow_anchor_off_by_one :
    load_error
        "l1\nl2\nl3\nl4\nlet x = 1; //~ ERROR first\n//~| ERROR second\n".toList
        none =
      .ok [⟨5, 0, some .Error, "first".toList, none⟩,
        ⟨4, -2, some .Error, "second".toList, none⟩] ∧
    (4 : Nat) ≠ 5 ∧ (-2 : Int) ≠ -1 := by decide

/-- C2: the claim says every build-directive line is unconditionally
rewritten to the target configuration directive.  `transform_code` never
invokes `parse_edition_directive` (the `header` module is not even
declared in `main.rs`), so the directive line passes through unchanged,
even though the helper, when called, produces exactly the claimed
rewrite. -/
theorem claim2_edition_directive_not_rewritten :
    transform_code "//@edition:2018\n".toList none =
      .ok "//@edition:2018\n".toList ∧
    parse_edition_directive "//@edition:2018".toList "//@edition".toList =
      some "// \x7b dg-additional-options \"-frust-edition=2018\" \x7d".toList := by
  decide

/-- C3: with companion entries supplied, every record is rewritten by the
last matching entry in companion-scan order (an entry matches on equal
line number or equal message); records with no matching entry are left
unchanged, their code still unset from extraction; with no companion
text the records are exactly the extraction result, all with unset
codes. -/
theorem claim3_resolver_last_match (text : List Char)
    (entries : List StderrResult) (errs : List Error)
    (h : load_error text none = .ok errs) :
    (∀ e ∈ errs, e.error_code = none) ∧
    load_error text (some entries) = .ok (errs.map (fun e =>
      match (entries.filter (fun r =>
          decide (e.line_num = r.line_number ∨
            e.msg = r.error_message_detail))).getLast? with
      | none => e
      | some r => { e with error_code := some r.error_code })) := by
  obtain ⟨errs0, hg, hcase⟩ := load_error_cases h
  rcases hcase with ⟨-, rfl⟩ | ⟨es, hno, -⟩
  · constructor
    · intro e he
      obtain ⟨j, l, -, -, -, h4⟩ := load_error_go_mem _ none 0 _ hg e he
      exact h4
    · unfold load_error
      rw [hg]
      dsimp only
      congr 1
      exact congrArg (fun f => List.map f errs)
        (funext fun e => assign_last_match entries e)
  · exact absurd hno (by simp)

/-- Witness for C3: a two-annotation file and three companion entries;
the first record matches two entries (one by line number, one by
message) and receives the code of the later one; the second record
matches none and keeps its code unset. -/
theorem claim3_witness :
    (∀ e ∈ ([⟨1, 0, some RustcErrorKind.Error, "first".toList, none⟩,
        ⟨2, 0, some RustcErrorKind.Error, "second".toList, none⟩] : List Error),
      e.error_code = none) ∧
    load_error "a //~ ERROR first\nb //~ ERROR second\n".toList
        (some [⟨"E0001".toList, "zzz".toList, 1⟩,
          ⟨"E0002".toList, "first".toList, 5⟩,
          ⟨"E0003".toList, "nomatch".toList, 9⟩]) =
      .ok (([⟨1, 0, some RustcErrorKind.Error, "first".toList, none⟩,
          ⟨2, 0, some RustcErrorKind.Error, "second".toList, none⟩] :
            List Error).map (fun e =>
        match (([⟨"E0001".toList, "zzz".toList, 1⟩,
            ⟨"E0002".toList, "first".toList, 5⟩,
            ⟨"E0003".toList, "nomatch".toList, 9⟩] :
              List StderrResult).filter (fun r =>
            decide (e.line_num = r.line_number ∨
              e.msg = r.error_message_detail))).getLast? with
        | none => e
        | some r => { e with error_code := some r.error_code })) :=
  claim3_resolver_last_match _ _ _ (by decide)

/-- Counterexample for C4: a record whose reconstructed origin is line 1
makes the rewriter replace a plain line carrying no annotation sigil, so
non-annotation preservation fails for arbitrary record sequences. -/
theorem claim4_counterexample :
    transform_lines [⟨0, -1, none, "m".toList, none⟩] 1 ["abc".toList] =
      .ok ["// \x7b dg-error \"\" \"\" \x7b target *-*-* \x7d .-1 \x7d".toList] ∧
    "// \x7b dg-error \"\" \"\" \x7b target *-*-* \x7d .-1 \x7d".toList ≠
      "abc".toList := by decide

/-- C4 (amended): the rewriting loop emits exactly one line per input
line for every record sequence on which it succeeds; and for the record
sequence actually extracted from the same source (the pipeline of
`transform_code`), every line with no annotation-sigil match is emitted
byte-for-byte unchanged. -/
theorem claim4_line_count_and_preservation :
    (∀ (errors : List Error) (n : Int) (ls out : List (List Char)),
      transform_lines errors n ls = .ok out → out.length = ls.length) ∧
    (∀ (code : List Char) (stderr : Option (List StderrResult))
        (errs : List Error) (newLines : List (List Char)),
      load_error code stderr = .ok errs →
      transform_lines errs 1 (strLines code) = .ok newLines →
      ∀ (j : Nat) (l : List Char), (strLines code)[j]? = some l →
        findSigil l = none → newLines[j]? = some l) := by
  constructor
  · exact transform_lines_length
  · intro code stderr errs newLines hload htrans j l hj hfn
    have hmem : ∀ e ∈ errs, ∀ (j' : Nat) (l' : List Char),
        (strLines code)[j']? = some l' →
        (e.line_num : Int) - e.relative_line_num = ((0 + j' + 1 : Nat) : Int) →
        (findSigil l').isSome = true := by
      intro e he j' l' hj' horig
      obtain ⟨-, j0, l0, hj0, horig0, hs0⟩ := load_error_mem_origin hload e he
      have hjj : j0 = j' := by
        rw [horig0] at horig
        omega
      subst hjj
      rw [hj0] at hj'
      injection hj' with hl
      rw [← hl]
      exact hs0
    have hcast : (((0 : Nat) + 1 : Nat) : Int) = 1 := by norm_num
    have htrans' : transform_lines errs (((0 : Nat) + 1 : Nat) : Int)
        (strLines code) = .ok newLines := by
      rw [hcast]; exact htrans
    exact transform_lines_keep errs (strLines code) 0 newLines hmem htrans' j l hj hfn

/-- Witness for C4: a two-line file whose first line has no sigil; the
output has two lines and the first passes through unchanged. -/
theorem claim4_witness :
    (["x".toList,
      "a // \x7b dg-error \"\" \"\" \x7b target *-*-* \x7d \x7d".toList] :
        List (List Char)).length = (strLines "x\na //~ ERROR m\n".toList).length ∧
    (["x".toList,
      "a // \x7b dg-error \"\" \"\" \x7b target *-*-* \x7d \x7d".toList] :
        List (List Char))[0]? = some "x".toList := by
  constructor
  · exact claim4_line_count_and_preservation.1
      [⟨2, 0, some .Error, "m".toList, none⟩] 1 _ _ (by decide)
  · exact claim4_line_count_and_preservation.2 "x\na //~ ERROR m\n".toList none
      [⟨2, 0, some .Error, "m".toList, none⟩] _ (by decide) (by decide)
      0 "x".toList (by decide) (by decide)

/-- Counterexample for C5: an adjust-backward with `n = L = 1` — the
claim says `n ≥ L` fails fatally — succeeds and produces a record
anchored at the non-positive line 0. -/
theorem claim5_counterexample :
    parse_expected none 1 "//~^ ERROR x".toList =
      .ok (.AdjustBackward 1) ⟨0, -1, some .Error, "x".toList, none⟩ := by decide

/-- Witness for C5: an adjust-backward(5) at line 3 fails fatally. -/
theorem claim5_witness :
    parse_expected none 3 ('/' :: '/' :: '~' ::
        (List.replicate 5 '^' ++ ' ' :: "ERROR x".toList)) =
      .fatal subOverflowMsg :=
  (claim5_adjust_backward none 3 5 "ERROR x".toList (by decide)
    (by decide)).1 (by decide)

/-- Counterexample for C6: `//~ ERROR` — a recognized kind word with no
further text, which the claim says is fatal — extracts successfully into
a record with an empty message. -/
theorem claim6_counterexample :
    parse_expected none 1 "//~ ERROR".toList =
      .ok .ThisLine ⟨1, 0, some .Error, [], none⟩ := by decide

/-- Witness for C6: a sigil followed only by whitespace is fatal. -/
theorem claim6_witness :
    parse_expected none 1 "//~  ".toList = .fatal emptyCommentMsg :=
  (claim6_empty_comment.1 none 1 "//~  ".toList [] [] "  ".toList
    (by decide)).mpr (by decide)

/-- Counterexample for C7: `//~|^ msg` presents both a continuation
marker and a caret, yet extraction succeeds (given an anchor) as a follow
annotation with the caret left in the message, instead of failing with
the conflicting-marker error. -/
theorem claim7_counterexample :
    parse_expected (some 3) 5 "x //~|^ msg".toList =
      .ok (.FollowPrevious 3) ⟨3, -2, none, "^ msg".toList, none⟩ := by decide

/-- Witness for C7: the conflicting-marker fatal outcome is impossible at
a concrete input. -/
theorem claim7_witness :
    parse_expected none 1 ([] : List Char) ≠ .fatal conflictMsg :=
  claim7_no_conflict_fatal none 1 []

/-- C9: on every source on which the rewriter succeeds (with companion
entries of the shape `parse_error_code` guarantees), re-running the
extractor on the rewritten output produces zero records: no rewritten
line matches the annotation recognizer. -/
theorem claim9_extraction_zero_on_rewritten (code : List Char)
    (stderr : Option (List StderrResult)) (out : List Char)
    (hst : StderrCodesOk stderr)
    (h : transform_code code stderr = .ok out) :
    load_error out none = .ok [] := by
  obtain ⟨errs, newLines, hload, htrans, rfl⟩ := transform_code_parts h
  have hgood : ∀ e ∈ errs, GoodCode e :=
    fun e he => (load_error_mem_origin hload e he).1 hst
  have hcomp : ∀ (j : Nat) (l : List Char), (strLines code)[j]? = some l →
      (findSigil l).isSome = true →
      ∃ e ∈ errs, (e.line_num : Int) - e.relative_line_num
        = ((0 + j + 1 : Nat) : Int) := by
    intro j l hj hs
    obtain ⟨e, he, horig⟩ := load_error_complete_origin hload j l hj hs
    refine ⟨e, he, ?_⟩
    rw [horig]
    congr 1
    omega
  have hcast : (((0 : Nat) + 1 : Nat) : Int) = 1 := by norm_num
  have htrans' : transform_lines errs (((0 : Nat) + 1 : Nat) : Int)
      (strLines code) = .ok newLines := by
    rw [hcast]; exact htrans
  have hlines := transform_lines_rewritten errs (strLines code) 0 newLines
    hcomp hgood (strLines_no_newline code) htrans'
  apply load_error_all_none
  rw [strLines_joinNL newLines (fun l hl => (hlines l hl).2)]
  intro l hl
  obtain ⟨l0, hl0, rfl⟩ := List.mem_map.mp hl
  exact findSigil_chopCR_none ((hlines l0 hl0).1)

/-- Witness for C9: the rewritten output of a two-annotation file
extracts to zero records. -/
theorem claim9_witness :
    load_error
      "a // \x7b dg-error \"\" \"\" \x7b target *-*-* \x7d \x7d\n// \x7b dg-error \"\" \"\" \x7b target *-*-* \x7d .-1 \x7d\n".toList
      none = .ok [] :=
  claim9_extraction_zero_on_rewritten "a //~ ERROR m\n//~^ ERROR n\n".toList
    none _ trivial (by decide)

end RustToDg
